import Mathlib

/-!
Verification of the QuantVol volatility-regime mean-reversion backtester.

The Python source is embedded shallowly:

* All float arithmetic is modelled over an arbitrary `LinearOrderedField α`
  (the program instantiates it at the reals).  The two transcendental
  operations the source uses, `sqrt` (inside `pandas.std` / `numpy.std`) and
  real exponentiation (inside the CAGR formula), are passed as explicit
  function parameters `sqrtFn` / `rpowFn`, so that every definition is a
  faithful, executable image of the code for any instantiation.
* A missing float value (`NaN`, and the infinities produced by division by
  zero) is modelled as `Option.none`; a pandas/numpy comparison against a
  missing value yields `False`, and arithmetic propagates `none`.
* The pandas date index is modelled as a list of integer day numbers, so that
  `(d2 - d1).days` becomes integer subtraction.
-/

namespace QuantVol

set_option linter.unusedSectionVars false

variable {α : Type} [LinearOrderedField α]

/-- `allSome xs = some ys` iff no entry of `xs` is missing; models the fact
that a numpy aggregate over data containing `NaN` is itself `NaN`. -/
def allSome : List (Option α) → Option (List α)
  | [] => some []
  | none :: _ => none
  | some x :: xs => (allSome xs).map (x :: ·)

/-- Division as numpy performs it: a zero denominator yields no finite value
(numpy produces `NaN` or `±Inf` together with a warning). -/
def npDiv (a b : α) : Option α := if b = 0 then none else some (a / b)

/-- Lift a binary operation to missing values (`NaN` propagates). -/
def opt2 (f : α → α → α) : Option α → Option α → Option α
  | some a, some b => some (f a b)
  | _, _ => none

def optMul (x y : Option α) : Option α := opt2 (fun a b => a * b) x y

/-- `x < y` as pandas evaluates it on possibly-missing floats: any comparison
involving `NaN` is `False`. -/
def optLt : Option α → Option α → Bool
  | some a, some b => decide (a < b)
  | _, _ => false

/-- `x > y` with pandas `NaN` semantics. -/
def optGt : Option α → Option α → Bool
  | some a, some b => decide (b < a)
  | _, _ => false

def ffillAux : Option α → List (Option α) → List (Option α)
  | _, [] => []
  | last, none :: xs => last :: ffillAux last xs
  | _, some x :: xs => some x :: ffillAux (some x) xs

/-- `fillna(method='ffill')` on one column: each missing entry is replaced by
the most recent earlier non-missing entry, if any. -/
def ffill (xs : List (Option α)) : List (Option α) := ffillAux none xs

/-- `fillna(method='bfill')` on one column. -/
def bfill (xs : List (Option α)) : List (Option α) := (ffill xs.reverse).reverse

/-- `fillna(method='ffill').fillna(method='bfill')`, as applied to every
column of `self.data` in `generate_signals`. -/
def fillCol (xs : List (Option α)) : List (Option α) := bfill (ffill xs)

def listMean (xs : List α) : α := xs.sum / (xs.length : α)

/-- Sample variance (`ddof = 1`), the square of what `pandas.Series.std()`
computes on a complete window. -/
def sampleVar (xs : List α) : α :=
  (xs.map (fun x => (x - listMean xs) ^ 2)).sum / ((xs.length : α) - 1)

/-- Population variance (`ddof = 0`), the square of `numpy.std`. -/
def popVar (xs : List α) : α :=
  (xs.map (fun x => (x - listMean xs) ^ 2)).sum / (xs.length : α)

/-- The trailing window of width `w` ending at position `i` (inclusive), as a
pandas rolling window sees it. -/
def windowAt (w : ℕ) (xs : List (Option α)) (i : ℕ) : List (Option α) :=
  (xs.take (i + 1)).drop (i + 1 - w)

/-- `rolling(window=w).var(ddof=1)` at position `i`: defined only when the
window is complete (`min_periods` defaults to the window size) and every
entry in it is non-missing. -/
def rollingSampleVar (w : ℕ) (xs : List (Option α)) (i : ℕ) : Option α :=
  if i + 1 < w ∨ xs.length ≤ i then none
  else (allSome (windowAt w xs i)).map sampleVar

/-- `rolling(window=w).mean()` at position `i` over a column with no missing
entries (the RSI gain/loss columns). -/
def rollingMeanT (w : ℕ) (xs : List α) (i : ℕ) : Option α :=
  if i + 1 < w ∨ xs.length ≤ i then none
  else some (listMean ((xs.take (i + 1)).drop (i + 1 - w)))

/-- `Series.pct_change()`: the default `fill_method='pad'` forward-fills the
series first, the entry at position 0 is missing, and a zero previous value
(whose quotient would be infinite) yields no finite value. -/
def pctChange (xs : List (Option α)) : List (Option α) :=
  (List.range (ffill xs).length).map (fun i =>
    if i = 0 then none
    else match (ffill xs).getD (i - 1) none, (ffill xs).getD i none with
      | some p, some c => if p = 0 then none else some ((c - p) / p)
      | _, _ => none)

/-- `Series.rolling(window=20).std()` as a whole column:
`sqrtFn` of the 20-bar sample variance wherever that is defined. -/
def rollingStdCol (sqrtFn : α → α) (xs : List (Option α)) : List (Option α) :=
  (List.range xs.length).map (fun i => (rollingSampleVar 20 xs i).map sqrtFn)

/-- Average fractional rank numerator: ranks of a tied group are averaged, so
the rank of `x` among `obs` is `#{y < x} + (#{y = x} + 1) / 2`. -/
def avgRank (obs : List α) (x : α) : α :=
  (obs.countP (fun y => decide (y < x)) : α) +
    ((obs.countP (fun y => decide (y = x)) : α) + 1) / 2

/-- `rolling(window=w).rank(pct=True)` at position `i`: the average
fractional rank of the current entry within its trailing `w`-bar window,
defined only when the window holds `w` non-missing observations. -/
def rollingRankPct (w : ℕ) (xs : List (Option α)) (i : ℕ) : Option α :=
  if xs.length ≤ i then none
  else match allSome (windowAt w xs i) with
    | some obs =>
        if obs.length < w then none
        else match xs.getD i none with
          | some x => some (avgRank obs x / (obs.length : α))
          | none => none
    | none => none

/-- Modelled from the spec: `vol_percentile` as §3 of the specification
describes it, the average fractional rank of the current entry among all
entries observed so far (expanding window, inclusive).  The source
(`data_loader.py` line 50) instead uses a rolling 252-bar window; this
definition exists only to be compared against `rollingRankPct`. -/
def expandingRankPct (xs : List (Option α)) (i : ℕ) : Option α :=
  if xs.length ≤ i then none
  else match xs.getD i none with
    | none => none
    | some x =>
        let obs : List α := (xs.take (i + 1)).filterMap id
        some (avgRank obs x / (obs.length : α))

/-- `data['Returns'] = data['Close'].pct_change()` (data_loader.py line 41). -/
def returnsCol (closes : List (Option α)) : List (Option α) := pctChange closes

/-- `data['Volatility'] = data['Returns'].rolling(window=20).std()`
(data_loader.py line 44). -/
def volatilityCol (sqrtFn : α → α) (closes : List (Option α)) : List (Option α) :=
  rollingStdCol sqrtFn (returnsCol closes)

/-- Modelled from the spec: the volatility column as §3 of the specification
describes it, the trailing 20-bar standard deviation of returns multiplied by
`√252`.  The source (data_loader.py line 44) performs no such annualization;
this definition exists only to be compared against `volatilityCol`. -/
def volatilityColSpec (sqrtFn : α → α) (closes : List (Option α)) : List (Option α) :=
  (volatilityCol sqrtFn closes).map (Option.map (fun s => s * sqrtFn 252))

/-- `data['Vol_Percentile'] = data['Volatility'].rolling(window=252).rank(pct=True)`
(data_loader.py line 50). -/
def volPercentileCol (sqrtFn : α → α) (closes : List (Option α)) : List (Option α) :=
  (List.range closes.length).map (rollingRankPct 252 (volatilityCol sqrtFn closes))

/-- Modelled from the spec: the expanding-window percentile column the
specification describes, to be compared against `volPercentileCol`. -/
def volPercentileColSpec (sqrtFn : α → α) (closes : List (Option α)) : List (Option α) :=
  (List.range closes.length).map (expandingRankPct (volatilityCol sqrtFn closes))

/-- The strategy's `self.data` DataFrame.  `dates` is the index (integer day
numbers).  The four base columns are produced by the data loader; the three
derived columns are absent (`none`) until `generate_signals` assigns them. -/
structure Frame (α : Type) where
  dates : List ℤ
  close : List (Option α)
  ema20 : List (Option α)
  volatility : List (Option α)
  volPercentile : List (Option α)
  priceDeviation : Option (List (Option α))
  deviationStd : Option (List (Option α))
  rsi : Option (List (Option α))
deriving DecidableEq, Repr

/-- The `signals` DataFrame built by `generate_signals`. -/
structure Signals where
  longEntry : List Bool
  shortEntry : List Bool
deriving DecidableEq, Repr

/-- `data['Price_Deviation'] = (data['Close'] - data['EMA_20']) / data['EMA_20']`
(strategy.py line 38); a zero EMA would divide by zero, yielding no finite
value. -/
def pdCol (close ema : List (Option α)) : List (Option α) :=
  (List.range close.length).map (fun i =>
    match close.getD i none, ema.getD i none with
    | some c, some e => if e = 0 then none else some ((c - e) / e)
    | _, _ => none)

def diffCol (xs : List (Option α)) : List (Option α) :=
  (List.range xs.length).map (fun i =>
    if i = 0 then none
    else match xs.getD (i - 1) none, xs.getD i none with
      | some p, some c => some (c - p)
      | _, _ => none)

/-- `delta.where(delta > 0, 0)`: a missing delta compares `False` and is
replaced by `0`, so the gain column has no missing entries. -/
def gainCol (delta : List (Option α)) : List α :=
  delta.map (fun d => match d with
    | some x => if 0 < x then x else 0
    | none => 0)

/-- `-delta.where(delta < 0, 0)`. -/
def lossCol (delta : List (Option α)) : List α :=
  delta.map (fun d => match d with
    | some x => if x < 0 then -x else 0
    | none => 0)

/-- `data['RSI'] = 100 - 100 / (1 + gain.rolling(14).mean() / loss.rolling(14).mean())`
(strategy.py lines 42-46).  A zero mean loss with positive mean gain gives
`rs = inf` and hence exactly `RSI = 100`; zero mean gain and loss gives
`rs = NaN` (no value). -/
def rsiCol (close : List (Option α)) : List (Option α) :=
  let delta := diffCol close
  let g := gainCol delta
  let l := lossCol delta
  (List.range close.length).map (fun i =>
    match rollingMeanT 14 g i, rollingMeanT 14 l i with
    | some gm, some lm =>
        if lm = 0 then (if gm = 0 then none else some 100)
        else some (100 - 100 / (1 + gm / lm))
    | _, _ => none)

/-- `self.data = self.data.fillna(method='ffill').fillna(method='bfill')`
(strategy.py line 49), applied column by column; the index is untouched. -/
def fillFrame (f : Frame α) : Frame α :=
  { dates := f.dates
    close := fillCol f.close
    ema20 := fillCol f.ema20
    volatility := fillCol f.volatility
    volPercentile := fillCol f.volPercentile
    priceDeviation := f.priceDeviation.map fillCol
    deviationStd := f.deviationStd.map fillCol
    rsi := f.rsi.map fillCol }

/-- The entry-signal columns (strategy.py lines 52-62), computed from the
filled frame.  The signals frame shares the data index, hence the
`dates.length` range. -/
def mkSignals (f : Frame α) : Signals :=
  let pdF := f.priceDeviation.getD []
  let dsF := f.deviationStd.getD []
  let rsiF := f.rsi.getD []
  { longEntry := (List.range f.dates.length).map (fun i =>
      optGt (f.volPercentile.getD i none) (some (7 / 10)) &&
      optLt (pdF.getD i none) (optMul (some (-(6 / 5))) (dsF.getD i none)) &&
      optLt (rsiF.getD i none) (some 35))
    shortEntry := (List.range f.dates.length).map (fun i =>
      optGt (f.volPercentile.getD i none) (some (7 / 10)) &&
      optGt (pdF.getD i none) (optMul (some (6 / 5)) (dsF.getD i none)) &&
      optGt (rsiF.getD i none) (some 65)) }

/-- `VolatilityRegimeStrategy.generate_signals` (strategy.py lines 28-64).
The method mutates `self.data`; the mutation is embedded by returning the new
frame alongside the signals. -/
def generateSignals (sqrtFn : α → α) (f : Frame α) : Frame α × Signals :=
  let pd := pdCol f.close f.ema20
  let f1 := fillFrame { f with priceDeviation := some pd
                               deviationStd := some (rollingStdCol sqrtFn pd)
                               rsi := some (rsiCol f.close) }
  (f1, mkSignals f1)

/-- The `Trade` dataclass (trade.py).  Prices and pnl are possibly-missing
floats; dates are integer day numbers. -/
structure TradeRec (α : Type) where
  entry_date : ℤ
  exit_date : Option ℤ
  entry_price : Option α
  exit_price : Option α
  position : ℤ
  pnl : Option α
  holding_period : ℤ
deriving DecidableEq, Repr

/-- The mutable simulator state `(self.position, self.current_trade,
self.trades)` carried across the bars of `run_backtest`. -/
structure BtState (α : Type) where
  position : ℤ
  currentTrade : Option (TradeRec α)
  trades : List (TradeRec α)
deriving DecidableEq, Repr

def initSt : BtState α := ⟨0, none, []⟩

/-- Mean-reversion exit (strategy.py lines 95-97). -/
def meanRevExit (p : ℤ) (pd ds : Option α) : Bool :=
  ((p == 1) && optGt pd (optMul (some (-(1 / 2))) ds)) ||
  ((p == -1) && optLt pd (optMul (some (1 / 2)) ds))

/-- RSI extreme exit (strategy.py line 100). -/
def rsiExit (p : ℤ) (rsi : Option α) : Bool :=
  ((p == 1) && optGt rsi (some 50)) || ((p == -1) && optLt rsi (some 50))

/-- Stop loss (strategy.py lines 104-105). -/
def stopLossExit (p : ℤ) (pd ds : Option α) : Bool :=
  ((p == 1) && optLt pd (optMul (some (-(9 / 5))) ds)) ||
  ((p == -1) && optGt pd (optMul (some (9 / 5)) ds))

/-- Trade pnl at close (strategy.py lines 117-120): direction-adjusted
fractional return; a missing price or a zero entry price gives no value. -/
def pnlOf (p : ℤ) (entry exitP : Option α) : Option α :=
  match entry, exitP with
  | some e, some x =>
      if e = 0 then none
      else if p = 1 then some ((x - e) / e) else some ((e - x) / e)
  | _, _ => none

/-- The freshly constructed `Trade` of an entry
(strategy.py lines 130-138 and 142-150). -/
def mkEntryTrade (d : ℤ) (price : Option α) (p : ℤ) : TradeRec α :=
  { entry_date := d, exit_date := none, entry_price := price,
    exit_price := none, position := p, pnl := some 0, holding_period := 0 }

/-- One iteration of the `for i in range(len(self.data))` loop of
`run_backtest` (strategy.py lines 79-153). -/
def btStep (f : Frame α) (sg : Signals) (i : ℕ) (st : BtState α) : BtState α :=
  if i < 20 then st
  else
    let currentDate := f.dates.getD i 0
    let currentPrice := f.close.getD i none
    let st1 : BtState α :=
      if st.position ≠ 0 ∧ st.currentTrade.isSome then
        match st.currentTrade with
        | none => st
        | some t =>
          let pd := (f.priceDeviation.getD []).getD i none
          let ds := (f.deviationStd.getD []).getD i none
          let rsi := (f.rsi.getD []).getD i none
          let exitSignal :=
            meanRevExit st.position pd ds || rsiExit st.position rsi ||
            stopLossExit st.position pd ds || decide (7 ≤ t.holding_period)
          if exitSignal then
            { position := 0, currentTrade := none,
              trades := st.trades ++
                [{ t with exit_date := some currentDate
                          exit_price := currentPrice
                          holding_period := currentDate - t.entry_date
                          pnl := pnlOf st.position t.entry_price currentPrice }] }
          else st
      else if st.position = 0 then
        if sg.longEntry.getD i false then
          { position := 1,
            currentTrade := some (mkEntryTrade currentDate currentPrice 1),
            trades := st.trades }
        else if sg.shortEntry.getD i false then
          { position := -1,
            currentTrade := some (mkEntryTrade currentDate currentPrice (-1)),
            trades := st.trades }
        else st
      else st
    match st1.currentTrade with
    | some t =>
        { st1 with currentTrade := some { t with holding_period := currentDate - t.entry_date } }
    | none => st1

/-- The simulator state after the first `k` loop iterations. -/
def stateAfter (f : Frame α) (sg : Signals) (k : ℕ) : BtState α :=
  (List.range k).foldl (fun s i => btStep f sg i s) initSt

/-- Forced close of a still-open trade after the loop
(strategy.py lines 156-166). -/
def forceClose (f : Frame α) (st : BtState α) : List (TradeRec α) :=
  match st.currentTrade with
  | none => st.trades
  | some t =>
    let lastDate := f.dates.getLastD 0
    let lastPrice := f.close.getLastD none
    st.trades ++
      [{ t with exit_date := some lastDate
                exit_price := lastPrice
                holding_period := lastDate - t.entry_date
                pnl := pnlOf st.position t.entry_price lastPrice }]

/-- The complete trade list produced by the walk of `run_backtest`. -/
def runTrades (f : Frame α) (sg : Signals) : List (TradeRec α) :=
  forceClose f (stateAfter f sg f.dates.length)

/-- The metrics dictionary returned by `calculate_metrics`.  Fields that the
source computes by a division whose denominator may vanish are
possibly-missing. -/
structure Metrics (α : Type) where
  total_trades : ℕ
  win_rate : α
  avg_return : Option α
  sharpe : Option α
  max_drawdown : Option α
  cagr : Option α
deriving DecidableEq, Repr

/-- `np.cumprod`: list of all prefix products. -/
def cumprodAux (acc : α) : List α → List α
  | [] => []
  | x :: xs => (acc * x) :: cumprodAux (acc * x) xs

def cumprod (xs : List α) : List α := cumprodAux 1 xs

/-- `np.maximum.accumulate`: running maximum. -/
def runMaxAux : Option α → List α → List α
  | _, [] => []
  | none, x :: xs => x :: runMaxAux (some x) xs
  | some m, x :: xs => max m x :: runMaxAux (some (max m x)) xs

def runningMax (xs : List α) : List α := runMaxAux none xs

/-- The max-drawdown block of `calculate_metrics` (strategy.py lines
201-205): minimum of `(cumulative - running_max) / running_max` over the
cumulative product of `1 + pnl`.  A zero running maximum divides by zero
(numpy `NaN`), and a missing pnl propagates. -/
def maxDrawdown (returns : List (Option α)) : Option α :=
  (allSome returns).bind (fun rs =>
    let cum := cumprod (rs.map (fun r => 1 + r))
    let rmax := runningMax cum
    (allSome (List.zipWith (fun c m => npDiv (c - m) m) cum rmax)).bind
      (fun dds => dds.min?))

/-- The Sharpe-ratio block of `calculate_metrics` (strategy.py lines
196-199): `sqrt(252) * mean(excess) / np.std(excess)` with
`excess = pnl - 0.02 / 252`.  `np.std` uses the population variance; when it
vanishes the quotient is `NaN`/`±Inf`, i.e. no finite value. -/
def sharpeOf (sqrtFn : α → α) (returns : List (Option α)) : Option α :=
  (allSome returns).bind (fun rs =>
    let ex := rs.map (fun r => r - (2 / 100) / 252)
    if popVar ex = 0 then none
    else some (sqrtFn 252 * listMean ex / sqrtFn (popVar ex)))

/-- The CAGR block of `calculate_metrics` (strategy.py lines 208-210).
`years = (last - first).days / 365`; when it is zero the source evaluates
`1 / years` and raises `ZeroDivisionError`, so no value is produced. -/
def cagrOf (rpowFn : α → α → α) (returns : List (Option α))
    (firstDate lastDate : ℤ) : Option α :=
  (allSome returns).bind (fun rs =>
    let totalReturn := (rs.map (fun r => 1 + r)).prod - 1
    let years : α := ((lastDate - firstDate : ℤ) : α) / 365
    if years = 0 then none
    else some (rpowFn (1 + totalReturn) (1 / years) - 1))

/-- Whether `trade.pnl > 0` as the source tests it (`NaN > 0` is `False`). -/
def isWinner (t : TradeRec α) : Bool :=
  match t.pnl with
  | some q => decide (0 < q)
  | none => false

/-- `VolatilityRegimeStrategy.calculate_metrics` (strategy.py lines
170-219).  An empty trade list short-circuits to the all-zero dictionary. -/
def calculateMetrics (sqrtFn : α → α) (rpowFn : α → α → α)
    (trades : List (TradeRec α)) (firstDate lastDate : ℤ) : Metrics α :=
  match trades with
  | [] => { total_trades := 0, win_rate := 0, avg_return := some 0,
            sharpe := some 0, max_drawdown := some 0, cagr := some 0 }
  | _ =>
    let returns := trades.map (·.pnl)
    { total_trades := trades.length,
      win_rate := ((trades.filter isWinner).length : α) / (trades.length : α),
      avg_return := (allSome returns).map listMean,
      sharpe := sharpeOf sqrtFn returns,
      max_drawdown := maxDrawdown returns,
      cagr := cagrOf rpowFn returns firstDate lastDate }

/-- `VolatilityRegimeStrategy.run_backtest` (strategy.py lines 66-168): the
signal generation (which replaces `self.data`), the walk producing the trade
list, and the metrics over the resulting trades and the data's date span.
The components of the result are the final `self.data`, `self.trades` and
the returned metrics dictionary. -/
def runBacktest (sqrtFn : α → α) (rpowFn : α → α → α) (f : Frame α) :
    Frame α × List (TradeRec α) × Metrics α :=
  let fs := generateSignals sqrtFn f
  let trades := runTrades fs.1 fs.2
  (fs.1, trades,
    calculateMetrics sqrtFn rpowFn trades (fs.1.dates.headD 0) (fs.1.dates.getLastD 0))

/-- All four data-loader columns of a frame are fully populated, as they are
after the loader's `dropna` preprocessing. -/
def baseDefinedB (f : Frame α) : Bool :=
  f.close.all Option.isSome && f.ema20.all Option.isSome &&
  f.volatility.all Option.isSome && f.volPercentile.all Option.isSome

/-- The simulator-state well-formedness invariant: the position flag is one
of `-1`, `0`, `1` and it is zero exactly when no trade is open. -/
def WfSt (st : BtState α) : Prop :=
  (st.position = 0 ↔ st.currentTrade = none) ∧
  (st.position = -1 ∨ st.position = 0 ∨ st.position = 1)

instance (st : BtState α) : Decidable (WfSt st) := by
  unfold WfSt; infer_instance


/-- A trade carrying only a pnl, for exercising `calculate_metrics` (which
reads nothing else from a trade). -/
def pnlTrade (q : Option α) : TradeRec α :=
  ⟨0, none, none, none, 1, q, 0⟩

/-- The pnl of a trade is a number other than `-1` (so its `1 + pnl` factor
in the cumulative product is nonzero). -/
def pnlDefinedNe1 (t : TradeRec α) : Bool :=
  match t.pnl with
  | some q => decide (q ≠ -1)
  | none => false

/-- The pnl of a trade is a non-negative number. -/
def pnlNonneg (t : TradeRec α) : Bool :=
  match t.pnl with
  | some q => decide (0 ≤ q)
  | none => false

/-- The 20-bar rolling variance column over ℚ: the computable core of
`volatilityCol`, used to evaluate the real-valued column at rational data. -/
def varColQ (xs : List (Option ℚ)) : List (Option ℚ) :=
  (List.range xs.length).map (rollingSampleVar 20 (returnsCol xs))

/-- Embeds a rational data column into the reals. -/
def castCol (xs : List (Option ℚ)) : List (Option ℝ) :=
  xs.map (Option.map (fun q : ℚ => (q : ℝ)))

/-! Concrete inputs used by witnesses and counterexamples. -/

def datesA : List ℤ := (List.range 25).map (fun n => (n : ℤ))

/-- 25 bars whose indicator columns admit a long entry at bar 20 and never
satisfy an exit condition afterwards (the deviation-std column is all-`NaN`,
so the deviation-based exits compare against `NaN` and are `False`). -/
def fA : Frame ℚ :=
  ⟨datesA, List.replicate 25 (some 100), [], [], [],
   some (List.replicate 25 (some (-10))), some (List.replicate 25 none),
   some (List.replicate 25 (some 40))⟩

def sgA : Signals :=
  ⟨(List.range 25).map (fun i => decide (i = 20)), List.replicate 25 false⟩

/-- Like `fA` but with RSI above 50, so the RSI-extreme exit fires on any
open long position. -/
def fB : Frame ℚ := { fA with rsi := some (List.replicate 25 (some 60)) }

def tB : TradeRec ℚ := ⟨20, none, some 100, none, 1, some 0, 0⟩

def stB : BtState ℚ := ⟨1, some tB, []⟩

/-- Dates with a 7-day calendar gap between bars 20 and 21, so the time stop
becomes active. -/
def datesC : List ℤ := (List.range 21).map (fun n => (n : ℤ)) ++ [28, 29, 30, 31]

def fC : Frame ℚ := { fA with dates := datesC }

def tC : TradeRec ℚ := ⟨20, none, some 100, none, 1, some 0, 8⟩

def stC : BtState ℚ := ⟨1, some tC, []⟩

/-- 21 closes: 1 then twenty 2s; the first complete 20-bar window of returns
is `[1, 0, ..., 0]`, of sample variance `1/20`. -/
def closesQ : List (Option ℚ) := some 1 :: List.replicate 20 (some 2)

def closesR : List (Option ℝ) := castCol closesQ

def wsQ : List ℚ := 1 :: List.replicate 19 0

def vols252 : List (Option ℚ) := List.replicate 252 (some 0)

def f6Q : Frame ℚ := ⟨[0], [some 1], [some 2], [some 0], [some 1], none, none, none⟩

def f6R : Frame ℝ := ⟨[0], [some 1], [some 2], [some 0], [some 1], none, none, none⟩

def f9Q : Frame ℚ :=
  ⟨[0, 1], [some 1, some 2], [some 1, some 1], [some 0, some 0],
   [some 1, some 1], none, none, none⟩

/-! ### Supporting lemmas -/

theorem allSome_length : ∀ {xs : List (Option α)} {ys : List α},
    allSome xs = some ys → ys.length = xs.length := by
  intro xs
  induction xs with
  | nil => intro ys h; cases h; rfl
  | cons x xs ih =>
    intro ys h
    cases x with
    | none => simp [allSome] at h
    | some a =>
      simp only [allSome, Option.map_eq_some'] at h
      rcases h with ⟨ys1, hy, rfl⟩
      simp [ih hy]

theorem allSome_of_all_isSome : ∀ {xs : List (Option α)},
    xs.all Option.isSome = true → allSome xs = some (xs.filterMap id) := by
  intro xs
  induction xs with
  | nil => intro _; rfl
  | cons x xs ih =>
    intro h
    simp only [List.all_cons, Bool.and_eq_true] at h
    cases x with
    | none => cases h.1
    | some a => simp [allSome, ih h.2]

/-! ### C8: empty trade list -/

/-- C8: on an empty trade list `calculate_metrics` returns all six fields as
the zero value (`0` or `0.0`) and raises no exception. -/
theorem c8_empty_all_zero (sqrtFn : α → α) (rpowFn : α → α → α) (d1 d2 : ℤ) :
    calculateMetrics sqrtFn rpowFn ([] : List (TradeRec α)) d1 d2 =
      ⟨0, 0, some 0, some 0, some 0, some 0⟩ := rfl

/-! ### C1: degenerate Sharpe ratio and CAGR -/

/-- C1: at the degenerate inputs the claim is about (a single trade, whose
excess-return standard deviation is zero, and a data span whose first and
last dates coincide, hence zero elapsed years), `calculate_metrics` produces
no well-defined fallback number: the Sharpe ratio is numpy's quotient by a
zero standard deviation (`NaN` or `±Inf`) and the CAGR computation evaluates
`1 / 0.0` and raises `ZeroDivisionError`; both are modelled as `none`. -/
theorem c1_no_fallback (sqrtFn : α → α) (rpowFn : α → α → α) (q : α) (d : ℤ) :
    (calculateMetrics sqrtFn rpowFn [pnlTrade (some q)] d d).sharpe = none ∧
    (calculateMetrics sqrtFn rpowFn [pnlTrade (some q)] d d).cagr = none := by
  constructor
  · show sharpeOf sqrtFn [some q] = none
    simp [sharpeOf, allSome, popVar, listMean]
  · show cagrOf rpowFn [some q] d d = none
    simp [cagrOf, allSome]

/-! ### C7: max drawdown sign -/

/-- C7 counterexample: for the one-trade list with pnl = −1 the cumulative
product and its running maximum are both zero, the drawdown quotient is
numpy `0/0 = NaN`, and `np.min` propagates it, so `max_drawdown` is not a
number `≤ 0`, contradicting the claim that it always is. -/
theorem c7_counterexample :
    ¬ ∃ m : ℚ,
      (calculateMetrics (fun q => q) (fun a _ => a) [pnlTrade (some (-1))] 0 5).max_drawdown =
        some m ∧ m ≤ 0 := by
  rintro ⟨m, hm, -⟩
  have heval : (calculateMetrics (fun q : ℚ => q) (fun a _ => a)
      [pnlTrade (some (-1))] 0 5).max_drawdown = none := by
    show maxDrawdown [some (-1)] = none
    norm_num [maxDrawdown, allSome, cumprod, cumprodAux, runningMax, runMaxAux, npDiv]
  rw [heval] at hm
  cases hm

theorem allSome_map_some : ∀ l : List α, allSome (l.map some) = some l := by
  intro l
  induction l with
  | nil => rfl
  | cons x l ih => simp [allSome, ih]

theorem foldl_min_le_init (l : List α) : ∀ a : α, l.foldl min a ≤ a := by
  induction l with
  | nil => intro a; exact le_refl a
  | cons x l ih => intro a; exact le_trans (ih (min a x)) (min_le_left a x)

theorem foldl_min_eq_or_mem (l : List α) :
    ∀ a : α, l.foldl min a = a ∨ l.foldl min a ∈ l := by
  induction l with
  | nil => intro a; exact Or.inl rfl
  | cons x l ih =>
    intro a
    rcases ih (min a x) with h | h
    · rcases min_choice a x with hm | hm
      · exact Or.inl (by rw [List.foldl_cons, h, hm])
      · exact Or.inr (by rw [List.foldl_cons, h, hm]; exact List.mem_cons_self x l)
    · exact Or.inr (List.mem_cons_of_mem x h)

theorem cumprodAux_ne_zero : ∀ (xs : List α) (acc : α), acc ≠ 0 →
    (∀ x ∈ xs, x ≠ 0) → ∀ y ∈ cumprodAux acc xs, y ≠ 0 := by
  intro xs
  induction xs with
  | nil => intro acc _ _ y hy; simp [cumprodAux] at hy
  | cons x xs ih =>
    intro acc hacc hxs y hy
    have hax : acc * x ≠ 0 := mul_ne_zero hacc (hxs x (List.mem_cons_self x xs))
    rw [cumprodAux] at hy
    rcases List.mem_cons.mp hy with rfl | hy
    · exact hax
    · exact ih (acc * x) hax (fun z hz => hxs z (List.mem_cons_of_mem x hz)) y hy

theorem runMaxAux_mem : ∀ (xs : List α) (acc : Option α) (y : α),
    y ∈ runMaxAux acc xs → y ∈ xs ∨ acc = some y := by
  intro xs
  induction xs with
  | nil => intro acc y hy; simp [runMaxAux] at hy
  | cons x xs ih =>
    intro acc y hy
    cases acc with
    | none =>
      rw [runMaxAux] at hy
      rcases List.mem_cons.mp hy with rfl | hy
      · exact Or.inl (List.mem_cons_self _ _)
      · rcases ih (some x) y hy with h | h
        · exact Or.inl (List.mem_cons_of_mem _ h)
        · exact Or.inl (by rw [← Option.some.inj h]; exact List.mem_cons_self _ _)
    | some m =>
      rw [runMaxAux] at hy
      rcases List.mem_cons.mp hy with rfl | hy
      · rcases max_choice m x with h2 | h2
        · exact Or.inr (by rw [h2])
        · exact Or.inl (by rw [h2]; exact List.mem_cons_self _ _)
      · rcases ih (some (max m x)) y hy with h | h
        · exact Or.inl (List.mem_cons_of_mem _ h)
        · have hxy := Option.some.inj h
          rcases max_choice m x with h2 | h2
          · exact Or.inr (by rw [← hxy, h2])
          · exact Or.inl (by rw [← hxy, h2]; exact List.mem_cons_self _ _)

theorem allSome_zipWith_npDiv : ∀ (cs ms : List α), (∀ m ∈ ms, m ≠ 0) →
    allSome (List.zipWith (fun c m => npDiv (c - m) m) cs ms) =
      some (List.zipWith (fun c m => (c - m) / m) cs ms) := by
  intro cs
  induction cs with
  | nil => intro ms _; rfl
  | cons c cs ih =>
    intro ms hms
    cases ms with
    | nil => rfl
    | cons m ms =>
      have hm : m ≠ 0 := hms m (List.mem_cons_self _ _)
      have ht := ih ms (fun z hz => hms z (List.mem_cons_of_mem _ hz))
      simp only [npDiv] at ht
      simp [List.zipWith_cons_cons, allSome, npDiv, if_neg hm, ht]

theorem runMaxAux_cumprodAux : ∀ (fs : List α) (acc : α), 0 < acc →
    (∀ x ∈ fs, 1 ≤ x) → runMaxAux (some acc) (cumprodAux acc fs) = cumprodAux acc fs := by
  intro fs
  induction fs with
  | nil => intro acc _ _; rfl
  | cons f fs ih =>
    intro acc hacc hfs
    have hf : 1 ≤ f := hfs f (List.mem_cons_self _ _)
    have hle : acc ≤ acc * f := le_mul_of_one_le_right hacc.le hf
    have hpos : 0 < acc * f := mul_pos hacc (lt_of_lt_of_le one_pos hf)
    simp only [cumprodAux, runMaxAux, max_eq_right hle]
    rw [ih (acc * f) hpos (fun z hz => hfs z (List.mem_cons_of_mem _ hz))]

theorem maxDrawdown_of_ne_neg_one (r0 : α) (rs : List α)
    (hne : ∀ r ∈ r0 :: rs, 1 + r ≠ 0) :
    ∃ m, maxDrawdown ((r0 :: rs).map some) = some m ∧ m ≤ 0 ∧
      ((∀ r ∈ r0 :: rs, 0 ≤ r) → m = 0) := by
  have hca : allSome ((r0 :: rs).map some) = some (r0 :: rs) := allSome_map_some _
  have hcum : cumprod ((r0 :: rs).map (fun r => 1 + r)) =
      (1 * (1 + r0)) :: cumprodAux (1 * (1 + r0)) (rs.map (fun r => 1 + r)) := rfl
  set c0 : α := 1 * (1 + r0) with hc0
  set tl : List α := cumprodAux c0 (rs.map (fun r => 1 + r)) with htl
  have hcum_ne : ∀ y ∈ c0 :: tl, y ≠ 0 := by
    have : ∀ y ∈ cumprodAux 1 ((r0 :: rs).map (fun r => 1 + r)), y ≠ 0 := by
      refine cumprodAux_ne_zero _ 1 one_ne_zero ?_
      intro x hx
      rcases List.mem_map.mp hx with ⟨r, hr, rfl⟩
      exact hne r hr
    intro y hy
    exact this y (by rw [show cumprodAux 1 ((r0 :: rs).map (fun r => 1 + r)) = c0 :: tl from rfl]; exact hy)
  have hrmax : runningMax (c0 :: tl) = c0 :: runMaxAux (some c0) tl := rfl
  have hrmax_ne : ∀ y ∈ c0 :: runMaxAux (some c0) tl, y ≠ 0 := by
    intro y hy
    rcases List.mem_cons.mp hy with rfl | hy
    · exact hcum_ne _ (List.mem_cons_self _ _)
    · rcases runMaxAux_mem tl (some c0) y hy with h | h
      · exact hcum_ne y (List.mem_cons_of_mem _ h)
      · have hcy := Option.some.inj h
        rw [← hcy]
        exact hcum_ne c0 (List.mem_cons_self _ _)
  have hdds := allSome_zipWith_npDiv (c0 :: tl) (c0 :: runMaxAux (some c0) tl) hrmax_ne
  have hv0 : (c0 - c0) / c0 = 0 := by rw [sub_self, zero_div]
  refine ⟨(List.zipWith (fun c m => (c - m) / m) tl (runMaxAux (some c0) tl)).foldl min 0, ?_, ?_, ?_⟩
  · show (allSome ((r0 :: rs).map some)).bind _ = _
    rw [hca]
    show (allSome (List.zipWith (fun c m => npDiv (c - m) m)
        (cumprod ((r0 :: rs).map (fun r => 1 + r)))
        (runningMax (cumprod ((r0 :: rs).map (fun r => 1 + r)))))).bind List.min? = _
    rw [hcum, hrmax, hdds]
    simp only [List.zipWith_cons_cons]
    rw [hv0]
    rfl
  · exact foldl_min_le_init _ 0
  · intro hpos
    have h1le : ∀ x ∈ rs.map (fun r => 1 + r), (1 : α) ≤ x := by
      intro x hx
      rcases List.mem_map.mp hx with ⟨r, hr, rfl⟩
      have := hpos r (List.mem_cons_of_mem _ hr)
      linarith
    have hc0pos : 0 < c0 := by
      have := hpos r0 (List.mem_cons_self _ _)
      rw [hc0]; nlinarith
    have heq : runMaxAux (some c0) tl = tl := by
      rw [htl]; exact runMaxAux_cumprodAux _ c0 hc0pos h1le
    rw [heq, List.zipWith_same]
    rcases foldl_min_eq_or_mem (tl.map fun c => (c - c) / c) 0 with h | h
    · exact h
    · rcases List.mem_map.mp h with ⟨c, _, hc⟩
      rw [← hc, sub_self, zero_div]

theorem exists_map_some_of_all : ∀ (trades : List (TradeRec α)),
    trades.all pnlDefinedNe1 = true →
    ∃ qs : List α, trades.map (fun t => t.pnl) = qs.map some ∧
      qs.length = trades.length ∧ (∀ q ∈ qs, q ≠ -1) ∧
      (trades.all pnlNonneg = true → ∀ q ∈ qs, 0 ≤ q) := by
  intro trades
  induction trades with
  | nil => intro _; exact ⟨[], rfl, rfl, by simp, by simp⟩
  | cons t ts ih =>
    intro h
    simp only [List.all_cons, Bool.and_eq_true] at h
    rcases ih h.2 with ⟨qs, hmap, hlen, hne, hnn⟩
    have h1 := h.1
    unfold pnlDefinedNe1 at h1
    cases hp : t.pnl with
    | none => rw [hp] at h1; cases h1
    | some q =>
      rw [hp] at h1
      refine ⟨q :: qs, by simp [hp, hmap], by simp [hlen], ?_, ?_⟩
      · intro z hz
        rcases List.mem_cons.mp hz with rfl | hz
        · exact of_decide_eq_true h1
        · exact hne z hz
      · intro hall z hz
        simp only [List.all_cons, Bool.and_eq_true] at hall
        have h2 := hall.1
        unfold pnlNonneg at h2
        rw [hp] at h2
        rcases List.mem_cons.mp hz with rfl | hz
        · exact of_decide_eq_true h2
        · exact hnn hall.2 z hz

/-- C7 (amended): for every trade list in which each pnl is a number other
than −1 (so no running maximum of the cumulative curve vanishes and no
drawdown quotient divides by zero), `calculate_metrics` produces a
max_drawdown value `≤ 0`, and the value is `0` whenever every pnl is
non-negative.  The original claim over every trade list fails at pnl = −1,
where numpy evaluates `0/0 = NaN`. -/
theorem c7_amended (sqrtFn : α → α) (rpowFn : α → α → α)
    (trades : List (TradeRec α)) (d1 d2 : ℤ)
    (h : trades.all pnlDefinedNe1 = true) :
    ∃ m, (calculateMetrics sqrtFn rpowFn trades d1 d2).max_drawdown = some m ∧ m ≤ 0 ∧
      (trades.all pnlNonneg = true → m = 0) := by
  rcases trades with _ | ⟨t, ts⟩
  · exact ⟨0, rfl, le_refl 0, fun _ => rfl⟩
  · rcases exists_map_some_of_all (t :: ts) h with ⟨qs, hmap, hlen, hne, hnn⟩
    rcases qs with _ | ⟨q0, qtail⟩
    · cases hlen
    · have hne1 : ∀ r ∈ q0 :: qtail, 1 + r ≠ 0 := by
        intro r hr habs
        exact hne r hr (by linarith)
      rcases maxDrawdown_of_ne_neg_one q0 qtail hne1 with ⟨m, hm, hm0, hmz⟩
      refine ⟨m, ?_, hm0, fun hall => hmz (hnn hall)⟩
      show maxDrawdown ((t :: ts).map (fun tr => tr.pnl)) = some m
      rw [hmap]
      exact hm

/-- C7 witness: the amended statement applied to the concrete two-trade list
with pnls `2` and `0`. -/
theorem c7_witness :
    [pnlTrade (some (2 : ℚ)), pnlTrade (some 0)].all pnlDefinedNe1 = true ∧
    ∃ m, (calculateMetrics (fun q : ℚ => q) (fun a _ => a)
        [pnlTrade (some 2), pnlTrade (some 0)] 0 5).max_drawdown = some m ∧ m ≤ 0 ∧
      ([pnlTrade (some (2 : ℚ)), pnlTrade (some 0)].all pnlNonneg = true →
        m = 0) :=
  ⟨by decide, c7_amended (fun q : ℚ => q) (fun a _ => a) _ 0 5 (by decide)⟩

theorem stateAfter_succ (f : Frame α) (sg : Signals) (k : ℕ) :
    stateAfter f sg (k + 1) = btStep f sg k (stateAfter f sg k) := by
  unfold stateAfter
  rw [List.range_succ, List.foldl_append]
  rfl

theorem btStep_skip (f : Frame α) (sg : Signals) (i : ℕ) (st : BtState α)
    (h20 : i < 20) : btStep f sg i st = st := by
  rw [btStep, if_pos h20]

theorem btStep_wf (f : Frame α) (sg : Signals) (i : ℕ) (st : BtState α)
    (h : WfSt st) : WfSt (btStep f sg i st) := by
  rcases h with ⟨hiff, htri⟩
  by_cases h20 : i < 20
  · rw [btStep_skip f sg i st h20]; exact ⟨hiff, htri⟩
  · rw [btStep, if_neg h20]
    cases hct : st.currentTrade with
    | none =>
      have hp0 : st.position = 0 := hiff.mpr hct
      simp only [hct, hp0, ne_eq, not_true_eq_false, Option.isSome_none,
        Bool.false_eq_true, and_false, false_and, if_false, if_true, ite_true, ite_false]
      by_cases hl : sg.longEntry.getD i false
      · simp only [hl, if_true, ite_true, mkEntryTrade]
        exact ⟨by simp, Or.inr (Or.inr rfl)⟩
      · by_cases hs : sg.shortEntry.getD i false
        · simp only [hl, hs, Bool.false_eq_true, if_false, if_true, ite_true, ite_false,
            mkEntryTrade]
          exact ⟨by simp, Or.inl rfl⟩
        · simp only [hl, hs, Bool.false_eq_true, if_false, ite_false, hct]
          exact ⟨⟨fun _ => hct, fun _ => hp0⟩, htri⟩
    | some t =>
      have hpne : st.position ≠ 0 := by
        intro h0
        rw [hiff.mp h0] at hct
        cases hct
      simp only [hct, Option.isSome_some, and_true, ne_eq, eq_false hpne, not_false_eq_true,
        if_true, ite_true]
      by_cases hex : (meanRevExit st.position ((f.priceDeviation.getD []).getD i none)
          ((f.deviationStd.getD []).getD i none) ||
        rsiExit st.position ((f.rsi.getD []).getD i none) ||
        stopLossExit st.position ((f.priceDeviation.getD []).getD i none)
          ((f.deviationStd.getD []).getD i none) || decide (7 ≤ t.holding_period)) = true
      · simp only [hex, if_true, ite_true]
        exact ⟨by simp, Or.inr (Or.inl rfl)⟩
      · simp only [hex, ite_false, Bool.false_eq_true, if_false, hct]
        exact ⟨⟨fun h0 => absurd h0 hpne, by simp⟩, htri⟩

theorem btStep_open_keeps (f : Frame α) (sg : Signals) (i : ℕ) (st : BtState α)
    (t : TradeRec α) (hct : st.currentTrade = some t) (hpne : st.position ≠ 0) :
    ∀ t', (btStep f sg i st).currentTrade = some t' →
      t'.entry_date = t.entry_date ∧ t'.entry_price = t.entry_price ∧
        t'.position = t.position := by
  intro t' ht'
  by_cases h20 : i < 20
  · rw [btStep_skip f sg i st h20, hct] at ht'
    cases ht'
    exact ⟨rfl, rfl, rfl⟩
  · rw [btStep, if_neg h20] at ht'
    simp only [hct, Option.isSome_some, and_true, ne_eq, eq_false hpne, not_false_eq_true,
      if_true, ite_true] at ht'
    by_cases hex : (meanRevExit st.position ((f.priceDeviation.getD []).getD i none)
        ((f.deviationStd.getD []).getD i none) ||
      rsiExit st.position ((f.rsi.getD []).getD i none) ||
      stopLossExit st.position ((f.priceDeviation.getD []).getD i none)
        ((f.deviationStd.getD []).getD i none) || decide (7 ≤ t.holding_period)) = true
    · simp only [hex, if_true, ite_true] at ht'
      cases ht'
    · simp only [hex, Bool.false_eq_true, if_false, ite_false, hct] at ht'
      cases ht'
      exact ⟨rfl, rfl, rfl⟩

theorem btStep_growth (f : Frame α) (sg : Signals) (i : ℕ) (st : BtState α)
    (t : TradeRec α) (hct : st.currentTrade = some t) (hpne : st.position ≠ 0)
    (hgrow : st.trades.length < (btStep f sg i st).trades.length) :
    (btStep f sg i st).position = 0 ∧ (btStep f sg i st).currentTrade = none ∧
      (btStep f sg i st).trades.length = st.trades.length + 1 := by
  by_cases h20 : i < 20
  · rw [btStep_skip f sg i st h20] at hgrow
    exact absurd hgrow (lt_irrefl _)
  · rw [btStep, if_neg h20] at hgrow ⊢
    simp only [hct, Option.isSome_some, and_true, ne_eq, eq_false hpne, not_false_eq_true,
      if_true, ite_true] at hgrow ⊢
    by_cases hex : (meanRevExit st.position ((f.priceDeviation.getD []).getD i none)
        ((f.deviationStd.getD []).getD i none) ||
      rsiExit st.position ((f.rsi.getD []).getD i none) ||
      stopLossExit st.position ((f.priceDeviation.getD []).getD i none)
        ((f.deviationStd.getD []).getD i none) || decide (7 ≤ t.holding_period)) = true
    · simp only [hex, if_true, ite_true] at hgrow ⊢
      refine ⟨?_, ?_, ?_⟩ <;> simp
    · simp only [hex, Bool.false_eq_true, if_false, ite_false, hct] at hgrow
      exact absurd hgrow (lt_irrefl _)

theorem btStep_holding (f : Frame α) (sg : Signals) (i : ℕ) (st : BtState α)
    (h20 : ¬ i < 20) :
    ∀ t, (btStep f sg i st).currentTrade = some t →
      t.holding_period = f.dates.getD i 0 - t.entry_date := by
  intro t ht
  rw [btStep, if_neg h20] at ht
  by_cases hp0 : st.position = 0
  · by_cases hl : sg.longEntry.getD i false
    · simp only [hp0, ne_eq, eq_self_iff_true, not_true_eq_false, false_and, if_false,
        ite_false, if_true, ite_true, hl, mkEntryTrade] at ht
      cases ht
      rfl
    · by_cases hs : sg.shortEntry.getD i false
      · simp only [hp0, ne_eq, eq_self_iff_true, not_true_eq_false, false_and, if_false,
          ite_false, if_true, ite_true, hl, hs, Bool.false_eq_true, mkEntryTrade] at ht
        cases ht
        rfl
      · cases hct : st.currentTrade with
        | some t0 =>
          simp only [hp0, ne_eq, eq_self_iff_true, not_true_eq_false, false_and, if_false,
            ite_false, if_true, ite_true, hl, hs, Bool.false_eq_true, hct] at ht
          cases ht
          rfl
        | none =>
          simp only [hp0, ne_eq, eq_self_iff_true, not_true_eq_false, false_and, if_false,
            ite_false, if_true, ite_true, hl, hs, Bool.false_eq_true, hct] at ht
          cases ht
  · cases hct : st.currentTrade with
    | some t0 =>
      simp only [hct, Option.isSome_some, and_true, ne_eq, eq_false hp0, not_false_eq_true,
        if_true, ite_true] at ht
      by_cases hex : (meanRevExit st.position ((f.priceDeviation.getD []).getD i none)
          ((f.deviationStd.getD []).getD i none) ||
        rsiExit st.position ((f.rsi.getD []).getD i none) ||
        stopLossExit st.position ((f.priceDeviation.getD []).getD i none)
          ((f.deviationStd.getD []).getD i none) || decide (7 ≤ t0.holding_period)) = true
      · simp only [hex, if_true, ite_true] at ht
        cases ht
      · simp only [hex, Bool.false_eq_true, if_false, ite_false, hct] at ht
        cases ht
        rfl
    | none =>
      simp only [hct, Option.isSome_none, Bool.false_eq_true, and_false, if_false, ite_false,
        eq_false hp0] at ht
      cases ht

theorem btStep_time_stop (f : Frame α) (sg : Signals) (i : ℕ) (st : BtState α)
    (t : TradeRec α) (h20 : ¬ i < 20) (hct : st.currentTrade = some t)
    (hpne : st.position ≠ 0)
    (hmr : meanRevExit st.position ((f.priceDeviation.getD []).getD i none)
      ((f.deviationStd.getD []).getD i none) = false)
    (hrs : rsiExit st.position ((f.rsi.getD []).getD i none) = false)
    (hsl : stopLossExit st.position ((f.priceDeviation.getD []).getD i none)
      ((f.deviationStd.getD []).getD i none) = false) :
    ((btStep f sg i st).currentTrade = none ↔ 7 ≤ t.holding_period) := by
  rw [btStep, if_neg h20]
  simp only [hct, Option.isSome_some, and_true, ne_eq, eq_false hpne, not_false_eq_true,
    if_true, ite_true, hmr, hrs, hsl, Bool.false_or]
  by_cases h7 : 7 ≤ t.holding_period
  · simp only [decide_eq_true h7, if_true, ite_true]
    simp [h7]
  · simp only [decide_eq_false h7, Bool.false_eq_true, if_false, ite_false, hct]
    simp [h7]

/-! ### C2: at most one open trade -/

/-- C2: at every point of the walk the simulator state is well-formed (the
position flag is in `{-1, 0, 1}` and is `0` exactly when no trade is open),
and while a position is open the next bar never creates a new entry: the open
trade's identifying fields are carried over unchanged.  Hence at most one
trade is open at any time and entries are only ever created in the flat
state. -/
theorem c2_at_most_one_open (f : Frame α) (sg : Signals) (k : ℕ) :
    WfSt (stateAfter f sg k) ∧
    ((stateAfter f sg k).position ≠ 0 →
      ∀ t', (stateAfter f sg (k + 1)).currentTrade = some t' →
        ∃ t, (stateAfter f sg k).currentTrade = some t ∧ t'.entry_date = t.entry_date ∧
          t'.entry_price = t.entry_price ∧ t'.position = t.position) := by
  have hwf : ∀ n, WfSt (stateAfter f sg n) := by
    intro n
    induction n with
    | zero => exact ⟨⟨fun _ => rfl, fun _ => rfl⟩, Or.inr (Or.inl rfl)⟩
    | succ n ih =>
      rw [stateAfter_succ]
      exact btStep_wf f sg n _ ih
  refine ⟨hwf k, fun hp t' ht' => ?_⟩
  cases hct : (stateAfter f sg k).currentTrade with
  | none => exact absurd ((hwf k).1.mpr hct) hp
  | some t =>
    rw [stateAfter_succ] at ht'
    exact ⟨t, rfl, btStep_open_keeps f sg k _ t hct hp t' ht'⟩

/-- C2 witness: in the concrete 25-bar scenario `fA`/`sgA` a long position is
open after bar 20, and the step to bar 21 keeps that same trade open. -/
theorem c2_witness :
    (stateAfter fA sgA 21).position ≠ 0 ∧
    (∀ t', (stateAfter fA sgA 22).currentTrade = some t' →
      ∃ t, (stateAfter fA sgA 21).currentTrade = some t ∧ t'.entry_date = t.entry_date ∧
        t'.entry_price = t.entry_price ∧ t'.position = t.position) :=
  ⟨by decide, (c2_at_most_one_open fA sgA 21).2 (by decide)⟩

/-! ### C3: exit has priority, no same-bar re-entry -/

/-- C3: while a position is open, the exit conditions are evaluated first,
and a bar that closes the trade (the trade list grows) leaves the simulator
flat with no current trade — so an exit and a new entry never occur within
the same bar, and the earliest bar at which a new position can be opened is
the next one. -/
theorem c3_exit_blocks_entry (f : Frame α) (sg : Signals) (i : ℕ) (st : BtState α)
    (hwf : WfSt st) (hpne : st.position ≠ 0)
    (hgrow : st.trades.length < (btStep f sg i st).trades.length) :
    (btStep f sg i st).position = 0 ∧ (btStep f sg i st).currentTrade = none ∧
      (btStep f sg i st).trades.length = st.trades.length + 1 := by
  cases hct : st.currentTrade with
  | none => exact absurd (hwf.1.mpr hct) hpne
  | some t => exact btStep_growth f sg i st t hct hpne hgrow

/-- C3 witness: at bar 21 of the concrete scenario `fB`, the RSI-extreme
exit closes the open long trade and the simulator ends that bar flat. -/
theorem c3_witness :
    WfSt stB ∧ stB.position ≠ 0 ∧
      stB.trades.length < (btStep fB sgA 21 stB).trades.length ∧
      ((btStep fB sgA 21 stB).position = 0 ∧ (btStep fB sgA 21 stB).currentTrade = none ∧
        (btStep fB sgA 21 stB).trades.length = stB.trades.length + 1) :=
  ⟨by decide, by decide, by decide,
    c3_exit_blocks_entry fB sgA 21 stB (by decide) (by decide) (by decide)⟩

/-! ### C10: the time stop reads the previous bar's holding period -/

/-- C10: (a) after processing bar `k ≥ 20`, an open trade's stored
`holding_period` is the day difference between bar `k`'s date and the entry
date; (b) at bar `i`, when no other exit condition holds, the step closes
the trade exactly when the stored `holding_period` — written at bar `i − 1`,
not recomputed from bar `i`'s date — is at least 7.  So the time stop fires
at the first bar `i` with `date(i−1) − entry_date ≥ 7`. -/
theorem c10_time_stop_lagged (f : Frame α) (sg : Signals) :
    (∀ k (t : TradeRec α), 20 ≤ k →
      (stateAfter f sg (k + 1)).currentTrade = some t →
      t.holding_period = f.dates.getD k 0 - t.entry_date) ∧
    (∀ i (st : BtState α) (t : TradeRec α), 20 ≤ i → st.currentTrade = some t →
      st.position ≠ 0 →
      meanRevExit st.position ((f.priceDeviation.getD []).getD i none)
        ((f.deviationStd.getD []).getD i none) = false →
      rsiExit st.position ((f.rsi.getD []).getD i none) = false →
      stopLossExit st.position ((f.priceDeviation.getD []).getD i none)
        ((f.deviationStd.getD []).getD i none) = false →
      ((btStep f sg i st).currentTrade = none ↔ 7 ≤ t.holding_period)) := by
  constructor
  · intro k t hk ht
    rw [stateAfter_succ] at ht
    exact btStep_holding f sg k _ (by omega) t ht
  · intro i st t hi hct hpne hmr hrs hsl
    exact btStep_time_stop f sg i st t (by omega) hct hpne hmr hrs hsl

/-- C10 witness: with a 7-day calendar gap between bars 20 and 21 (`fC`),
the trade opened at bar 20 carries `holding_period = 8 = date(21) − date(20)`
after bar 21, and at bar 22 the time stop fires because that stored value is
`≥ 7` — even though no other exit condition holds. -/
theorem c10_witness :
    ((stateAfter fC sgA 22).currentTrade = some tC ∧
      tC.holding_period = fC.dates.getD 21 0 - tC.entry_date) ∧
    ((btStep fC sgA 22 stC).currentTrade = none ↔ 7 ≤ tC.holding_period) :=
  ⟨⟨by decide, (c10_time_stop_lagged fC sgA).1 21 tC (by decide) (by decide)⟩,
    (c10_time_stop_lagged fC sgA).2 22 stC tC (by decide) (by decide) (by decide)
      (by decide) (by decide) (by decide)⟩

theorem ffillAux_of_all_isSome : ∀ (xs : List (Option α)) (acc : Option α),
    xs.all Option.isSome = true → ffillAux acc xs = xs := by
  intro xs
  induction xs with
  | nil => intro acc _; rfl
  | cons x xs ih =>
    intro acc h
    simp only [List.all_cons, Bool.and_eq_true] at h
    cases x with
    | none => cases h.1
    | some a => rw [ffillAux, ih (some a) h.2]

theorem ffill_of_all_isSome {xs : List (Option α)} (h : xs.all Option.isSome = true) :
    ffill xs = xs := ffillAux_of_all_isSome xs none h

theorem bfill_of_all_isSome {xs : List (Option α)} (h : xs.all Option.isSome = true) :
    bfill xs = xs := by
  unfold bfill
  rw [ffill_of_all_isSome (by simpa using h), List.reverse_reverse]

theorem fillCol_of_all_isSome {xs : List (Option α)} (h : xs.all Option.isSome = true) :
    fillCol xs = xs := by
  unfold fillCol
  rw [ffill_of_all_isSome h, bfill_of_all_isSome h]

theorem baseDefined_split {f : Frame α} (h : baseDefinedB f = true) :
    f.close.all Option.isSome = true ∧ f.ema20.all Option.isSome = true ∧
      f.volatility.all Option.isSome = true ∧ f.volPercentile.all Option.isSome = true := by
  unfold baseDefinedB at h
  simp only [Bool.and_eq_true] at h
  tauto

theorem generateSignals_fst (sqrtFn : α → α) (f : Frame α) (hd : baseDefinedB f = true) :
    (generateSignals sqrtFn f).1 =
      { f with priceDeviation := some (fillCol (pdCol f.close f.ema20)),
               deviationStd := some (fillCol (rollingStdCol sqrtFn (pdCol f.close f.ema20))),
               rsi := some (fillCol (rsiCol f.close)) } := by
  rcases baseDefined_split hd with ⟨h1, h2, h3, h4⟩
  show fillFrame { f with priceDeviation := some (pdCol f.close f.ema20),
                          deviationStd := some (rollingStdCol sqrtFn (pdCol f.close f.ema20)),
                          rsi := some (rsiCol f.close) } = _
  unfold fillFrame
  simp only [fillCol_of_all_isSome h1, fillCol_of_all_isSome h2, fillCol_of_all_isSome h3,
    fillCol_of_all_isSome h4, Option.map_some']

theorem generateSignals_snd (sqrtFn : α → α) (f : Frame α) :
    (generateSignals sqrtFn f).2 = mkSignals ((generateSignals sqrtFn f).1) := rfl

theorem generateSignals_idem (sqrtFn : α → α) (f : Frame α) (hd : baseDefinedB f = true) :
    generateSignals sqrtFn ((generateSignals sqrtFn f).1) = generateSignals sqrtFn f := by
  have hfst := generateSignals_fst sqrtFn f hd
  have hd1 : baseDefinedB ((generateSignals sqrtFn f).1) = true := by
    rw [hfst]; exact hd
  have hF : (generateSignals sqrtFn ((generateSignals sqrtFn f).1)).1 =
      (generateSignals sqrtFn f).1 := by
    rw [generateSignals_fst sqrtFn _ hd1, hfst]
  refine Prod.ext ?_ ?_
  · exact hF
  · rw [generateSignals_snd, generateSignals_snd, hF]

theorem runBacktest_congr (sqrtFn : α → α) (rpowFn : α → α → α) {g g' : Frame α}
    (h : generateSignals sqrtFn g = generateSignals sqrtFn g') :
    runBacktest sqrtFn rpowFn g = runBacktest sqrtFn rpowFn g' := by
  unfold runBacktest
  rw [h]

/-! ### C6: the signal generation mutates the stored bar data -/

/-- C6 counterexample: running the backtest on a frame whose derived columns
are absent leaves the strategy's data with a `Price_Deviation` column where
the caller's frame had none — the caller's bar data is mutated, contradicting
the claim that no columns are added. -/
theorem c6_counterexample : (runBacktest Real.sqrt (fun a _ => a) f6R).1 ≠ f6R := by
  intro h
  have hpd : (some (fillCol (pdCol f6R.close f6R.ema20)) : Option (List (Option ℝ))) = none :=
    congrArg Frame.priceDeviation h
  cases hpd

/-- C6 (amended): `generate_signals` returns a freshly built signals frame,
but it does not leave the stored bar data unchanged — it overwrites the
`Price_Deviation`, `Deviation_Std` and `RSI` columns with newly derived
(and NaN-filled) values and re-applies the fill to every column.  With fully
populated base columns, the date index and the four base columns are
preserved and exactly the three derived columns are (re)written. -/
theorem c6_mutates_frame (sqrtFn : α → α) (f : Frame α) (hd : baseDefinedB f = true) :
    (generateSignals sqrtFn f).1 =
      { f with priceDeviation := some (fillCol (pdCol f.close f.ema20)),
               deviationStd := some (fillCol (rollingStdCol sqrtFn (pdCol f.close f.ema20))),
               rsi := some (fillCol (rsiCol f.close)) } ∧
    (generateSignals sqrtFn f).1.dates = f.dates ∧
    (generateSignals sqrtFn f).1.close = f.close ∧
    (generateSignals sqrtFn f).1.ema20 = f.ema20 ∧
    (generateSignals sqrtFn f).1.volatility = f.volatility ∧
    (generateSignals sqrtFn f).1.volPercentile = f.volPercentile := by
  have h := generateSignals_fst sqrtFn f hd
  rw [h]
  exact ⟨rfl, rfl, rfl, rfl, rfl, rfl⟩

/-- C6 witness: the amended statement applied to the concrete one-bar frame
`f6Q` with fully populated base columns. -/
theorem c6_witness :
    baseDefinedB f6Q = true ∧
    ((generateSignals (fun q : ℚ => q) f6Q).1 =
      { f6Q with priceDeviation := some (fillCol (pdCol f6Q.close f6Q.ema20)),
                 deviationStd := some (fillCol (rollingStdCol (fun q : ℚ => q)
                   (pdCol f6Q.close f6Q.ema20))),
                 rsi := some (fillCol (rsiCol f6Q.close)) } ∧
      (generateSignals (fun q : ℚ => q) f6Q).1.dates = f6Q.dates ∧
      (generateSignals (fun q : ℚ => q) f6Q).1.close = f6Q.close ∧
      (generateSignals (fun q : ℚ => q) f6Q).1.ema20 = f6Q.ema20 ∧
      (generateSignals (fun q : ℚ => q) f6Q).1.volatility = f6Q.volatility ∧
      (generateSignals (fun q : ℚ => q) f6Q).1.volPercentile = f6Q.volPercentile) :=
  ⟨by decide, c6_mutates_frame (fun q : ℚ => q) f6Q (by decide)⟩

/-! ### C9: the backtest is idempotent on the mutated frame -/

/-- C9: running `run_backtest` a second time on the strategy object — whose
`self.data` is now the frame mutated by the first run — reproduces the first
run exactly: the same frame, the same trade list and the same metrics.  The
internal state is reset at the start of each run and the indicator
recomputation is stable because it depends only on the (preserved) base
columns, so the whole backtest is idempotent. -/
theorem c9_idempotent (sqrtFn : α → α) (rpowFn : α → α → α) (f : Frame α)
    (hd : baseDefinedB f = true) :
    runBacktest sqrtFn rpowFn (runBacktest sqrtFn rpowFn f).1 =
      runBacktest sqrtFn rpowFn f :=
  runBacktest_congr sqrtFn rpowFn (generateSignals_idem sqrtFn f hd)

/-- C9 witness: the idempotence applied to the concrete two-bar frame
`f9Q` with fully populated base columns. -/
theorem c9_witness :
    baseDefinedB f9Q = true ∧
    runBacktest (fun q : ℚ => q) (fun a _ => a)
        (runBacktest (fun q : ℚ => q) (fun a _ => a) f9Q).1 =
      runBacktest (fun q : ℚ => q) (fun a _ => a) f9Q :=
  ⟨by decide, c9_idempotent (fun q : ℚ => q) (fun a _ => a) f9Q (by decide)⟩

theorem getD_range_map {β : Type} (g : ℕ → β) (n i : ℕ) (d : β) (h : i < n) :
    ((List.range n).map g).getD i d = g i := by
  rw [List.getD_eq_getElem?_getD, List.getElem?_map, List.getElem?_range h]
  rfl

theorem ffillAux_length : ∀ (xs : List (Option α)) (acc : Option α),
    (ffillAux acc xs).length = xs.length := by
  intro xs
  induction xs with
  | nil => intro acc; rfl
  | cons x xs ih =>
    intro acc
    cases x with
    | none => simp [ffillAux, ih]
    | some a => simp [ffillAux, ih]

theorem ffill_length (xs : List (Option α)) : (ffill xs).length = xs.length :=
  ffillAux_length xs none

theorem pctChange_length (xs : List (Option α)) : (pctChange xs).length = xs.length := by
  unfold pctChange
  simp [ffill_length]

theorem volatilityCol_getD (sqrtFn : α → α) (closes : List (Option α)) (i : ℕ)
    (h2 : i < closes.length) :
    (volatilityCol sqrtFn closes).getD i none =
      (rollingSampleVar 20 (returnsCol closes) i).map sqrtFn := by
  unfold volatilityCol rollingStdCol
  exact getD_range_map _ _ i none (by rw [returnsCol, pctChange_length]; exact h2)

/-! ### C4: the volatility column is not annualized -/

/-- C4 (amended): for every bar `i ≥ 20` whose trailing 20-bar window of
one-day returns is fully defined, the derived volatility equals the sample
standard deviation (`sqrtFn` of the sample variance) of the returns over
that 20-bar window — with no `√252` annualization factor, contrary to the
original claim. -/
theorem c4_not_annualized (sqrtFn : α → α) (closes : List (Option α)) (i : ℕ)
    (h1 : 20 ≤ i) (h2 : i < closes.length)
    (h3 : (windowAt 20 (returnsCol closes) i).all Option.isSome = true) :
    (volatilityCol sqrtFn closes).getD i none =
      some (sqrtFn (sampleVar ((windowAt 20 (returnsCol closes) i).filterMap id))) ∧
    (windowAt 20 (returnsCol closes) i).length = 20 := by
  have hlen : (returnsCol closes).length = closes.length := by
    rw [returnsCol, pctChange_length]
  constructor
  · rw [volatilityCol_getD sqrtFn closes i h2]
    unfold rollingSampleVar
    rw [if_neg (by omega), allSome_of_all_isSome h3]
    rfl
  · unfold windowAt
    rw [List.length_drop, List.length_take]
    omega

/-- C4 witness: the amended statement applied to 21 concrete closes whose
first complete window of returns is `[1, 0, …, 0]`. -/
theorem c4_witness :
    (20 ≤ 20 ∧ 20 < closesQ.length ∧
      (windowAt 20 (returnsCol closesQ) 20).all Option.isSome = true) ∧
    ((volatilityCol (fun q : ℚ => q) closesQ).getD 20 none =
        some (sampleVar ((windowAt 20 (returnsCol closesQ) 20).filterMap id)) ∧
      (windowAt 20 (returnsCol closesQ) 20).length = 20) :=
  ⟨⟨by decide, by decide, by decide⟩,
    c4_not_annualized (fun q : ℚ => q) closesQ 20 (by decide) (by decide) (by decide)⟩

/-! Transport of the computable rational evaluation of the indicator columns
to the real-valued instance actually run by the program. -/

theorem castCol_length (xs : List (Option ℚ)) : (castCol xs).length = xs.length := by
  simp [castCol]

theorem getD_map_none {β γ : Type} (g : Option β → Option γ) (hg : g none = none)
    (xs : List (Option β)) (i : ℕ) : (xs.map g).getD i none = g (xs.getD i none) := by
  induction xs generalizing i with
  | nil => simp [hg]
  | cons x xs ih =>
    cases i with
    | zero => simp
    | succ n => simpa using ih n

theorem castCol_getD (xs : List (Option ℚ)) (i : ℕ) :
    (castCol xs).getD i none = Option.map (fun q : ℚ => (q : ℝ)) (xs.getD i none) :=
  getD_map_none _ rfl xs i

theorem ffillAux_castCol : ∀ (xs : List (Option ℚ)) (acc : Option ℚ),
    ffillAux (Option.map (fun q : ℚ => (q : ℝ)) acc) (castCol xs) =
      castCol (ffillAux acc xs) := by
  intro xs
  induction xs with
  | nil => intro acc; rfl
  | cons x xs ih =>
    intro acc
    cases x with
    | none =>
      show ffillAux (Option.map (fun q : ℚ => (q : ℝ)) acc) (none :: castCol xs) =
        castCol (acc :: ffillAux acc xs)
      rw [show castCol (acc :: ffillAux acc xs) =
          Option.map (fun q : ℚ => (q : ℝ)) acc :: castCol (ffillAux acc xs) from rfl]
      rw [← ih acc]
      rfl
    | some a =>
      show ffillAux (Option.map (fun q : ℚ => (q : ℝ)) acc) (some ((a : ℝ)) :: castCol xs) =
        castCol (some a :: ffillAux (some a) xs)
      rw [show castCol (some a :: ffillAux (some a) xs) =
          some ((a : ℝ)) :: castCol (ffillAux (some a) xs) from rfl]
      rw [← ih (some a)]
      rfl

theorem ffill_castCol (xs : List (Option ℚ)) : ffill (castCol xs) = castCol (ffill xs) :=
  ffillAux_castCol xs none

theorem pctChange_castCol (xs : List (Option ℚ)) :
    pctChange (castCol xs) = castCol (pctChange xs) := by
  unfold pctChange
  rw [ffill_castCol]
  conv_rhs => rw [castCol]
  rw [castCol_length, List.map_map]
  refine List.map_congr_left ?_
  intro i _
  by_cases h0 : i = 0
  · subst h0; rfl
  · simp only [h0, if_false, ite_false, Function.comp_apply]
    rw [castCol_getD, castCol_getD]
    cases hp : (ffill xs).getD (i - 1) none with
    | none => simp
    | some p =>
      cases hc : (ffill xs).getD i none with
      | none => simp
      | some c =>
        simp only [Option.map_some']
        by_cases hz : p = 0
        · simp [hz]
        · have hz2 : (p : ℝ) ≠ 0 := by exact_mod_cast hz
          rw [if_neg hz2, if_neg hz]
          simp only [Option.map_some']
          push_cast
          rfl

theorem sum_castList (vs : List ℚ) :
    (vs.map (fun q : ℚ => (q : ℝ))).sum = ((vs.sum : ℚ) : ℝ) := by
  induction vs with
  | nil => simp
  | cons v vs ih =>
    rw [List.map_cons, List.sum_cons, List.sum_cons, ih]
    push_cast
    ring

theorem listMean_cast (vs : List ℚ) :
    listMean (vs.map (fun q : ℚ => (q : ℝ))) = ((listMean vs : ℚ) : ℝ) := by
  unfold listMean
  rw [List.length_map, sum_castList]
  push_cast
  rfl

theorem sampleVar_cast (vs : List ℚ) :
    sampleVar (vs.map (fun q : ℚ => (q : ℝ))) = ((sampleVar vs : ℚ) : ℝ) := by
  unfold sampleVar
  rw [List.length_map, listMean_cast, List.map_map]
  rw [show ((fun x => (x - ((listMean vs : ℚ) : ℝ)) ^ 2) ∘ fun q : ℚ => (q : ℝ)) =
      (fun q : ℚ => (q : ℝ)) ∘ (fun q : ℚ => (q - listMean vs) ^ 2) from ?_]
  · rw [← List.map_map, sum_castList]
    push_cast
    rfl
  · funext q
    simp only [Function.comp]
    push_cast
    ring

theorem windowAt_castCol (w : ℕ) (xs : List (Option ℚ)) (i : ℕ) :
    windowAt w (castCol xs) i = castCol (windowAt w xs i) := by
  unfold windowAt castCol
  rw [List.map_drop, List.map_take]

theorem allSome_castCol : ∀ xs : List (Option ℚ),
    allSome (castCol xs) = Option.map (List.map (fun q : ℚ => (q : ℝ))) (allSome xs) := by
  intro xs
  induction xs with
  | nil => rfl
  | cons x xs ih =>
    cases x with
    | none => rfl
    | some a =>
      show allSome (some ((a : ℝ)) :: castCol xs) =
        Option.map (List.map (fun q : ℚ => (q : ℝ))) (allSome (some a :: xs))
      simp only [allSome]
      rw [ih]
      cases allSome xs <;> rfl

theorem rollingSampleVar_castCol (w : ℕ) (xs : List (Option ℚ)) (i : ℕ) :
    rollingSampleVar w (castCol xs) i =
      Option.map (fun q : ℚ => (q : ℝ)) (rollingSampleVar w xs i) := by
  unfold rollingSampleVar
  rw [castCol_length]
  by_cases hg : i + 1 < w ∨ xs.length ≤ i
  · simp [hg]
  · simp only [hg, if_false, ite_false]
    rw [windowAt_castCol, allSome_castCol]
    cases h : allSome (windowAt w xs i) with
    | none => rfl
    | some vs => simp [sampleVar_cast]

theorem volatilityColR_getD (closes : List (Option ℚ)) (i : ℕ) (h2 : i < closes.length) :
    (volatilityCol Real.sqrt (castCol closes)).getD i none =
      Option.map (fun q : ℚ => Real.sqrt (q : ℝ)) (rollingSampleVar 20 (returnsCol closes) i) := by
  rw [volatilityCol_getD Real.sqrt (castCol closes) i (by rw [castCol_length]; exact h2)]
  unfold returnsCol
  rw [pctChange_castCol, rollingSampleVar_castCol]
  cases rollingSampleVar 20 (pctChange closes) i <;> rfl

theorem rollingSampleVar_eval (w : ℕ) (xs : List (Option α)) (i : ℕ)
    (h1 : ¬ (i + 1 < w ∨ xs.length ≤ i))
    (h3 : (windowAt w xs i).all Option.isSome = true) :
    rollingSampleVar w xs i = some (sampleVar ((windowAt w xs i).filterMap id)) := by
  unfold rollingSampleVar
  rw [if_neg h1, allSome_of_all_isSome h3]
  rfl

theorem getD_mem_of_lt {β : Type} (xs : List β) (i : ℕ) (d : β) (h : i < xs.length) :
    xs.getD i d ∈ xs := by
  rw [List.getD_eq_getElem?_getD, List.getElem?_eq_getElem h]
  exact List.getElem_mem h

theorem getD_mem_windowAt (w : ℕ) (xs : List (Option α)) (i j : ℕ)
    (hij : i + 1 - w ≤ j) (hji : j ≤ i) (hjlen : j < xs.length) :
    xs.getD j none ∈ windowAt w xs i := by
  unfold windowAt
  have hjt : j < (xs.take (i + 1)).length := by
    rw [List.length_take]
    omega
  have h1 : ((xs.take (i + 1)).drop (i + 1 - w))[j - (i + 1 - w)]? = (xs.take (i + 1))[j]? := by
    rw [List.getElem?_drop]
    congr 1
    omega
  have h2 : (xs.take (i + 1))[j]? = xs[j]? :=
    List.getElem?_take_of_lt (by omega)
  have h3 : xs[j]? = some (xs.getD j none) := by
    rw [List.getElem?_eq_getElem hjlen, List.getD_eq_getElem?_getD,
      List.getElem?_eq_getElem hjlen]
    rfl
  have h4 := h1.trans (h2.trans h3)
  have h5 : j - (i + 1 - w) < ((xs.take (i + 1)).drop (i + 1 - w)).length := by
    rw [List.length_drop, List.length_take]
    omega
  rw [List.getElem?_eq_getElem h5] at h4
  rw [← Option.some.inj h4]
  exact List.getElem_mem h5

theorem list_sum_pos_of_mem (l : List α) (hnn : ∀ x ∈ l, 0 ≤ x) (x : α)
    (hx : x ∈ l) (hxpos : 0 < x) : 0 < l.sum := by
  induction l with
  | nil => cases hx
  | cons y l ih =>
    rw [List.sum_cons]
    rcases List.mem_cons.mp hx with rfl | hx2
    · have : 0 ≤ l.sum := List.sum_nonneg (fun z hz => hnn z (List.mem_cons_of_mem _ hz))
      linarith
    · have hy : 0 ≤ y := hnn y (List.mem_cons_self _ _)
      have := ih (fun z hz => hnn z (List.mem_cons_of_mem _ hz)) hx2
      linarith

theorem sampleVar_pos (ws : List α) (a b : α) (ha : a ∈ ws) (hb : b ∈ ws)
    (hab : a ≠ b) (hlen : 2 ≤ ws.length) : 0 < sampleVar ws := by
  unfold sampleVar
  apply div_pos
  · have hne : a ≠ listMean ws ∨ b ≠ listMean ws := by
      by_contra hcon
      push_neg at hcon
      exact hab (hcon.1.trans hcon.2.symm)
    have hnn : ∀ z ∈ ws.map (fun x => (x - listMean ws) ^ 2), 0 ≤ z := by
      intro z hz
      rcases List.mem_map.mp hz with ⟨y, _, rfl⟩
      exact sq_nonneg _
    rcases hne with h | h
    · exact list_sum_pos_of_mem _ hnn ((a - listMean ws) ^ 2)
        (List.mem_map.mpr ⟨a, ha, rfl⟩) (pow_two_pos_of_ne_zero (sub_ne_zero.mpr h))
    · exact list_sum_pos_of_mem _ hnn ((b - listMean ws) ^ 2)
        (List.mem_map.mpr ⟨b, hb, rfl⟩) (pow_two_pos_of_ne_zero (sub_ne_zero.mpr h))
  · have h2 : (2 : α) ≤ (ws.length : α) := by exact_mod_cast hlen
    linarith

theorem allSome_eq_none_of_mem : ∀ {xs : List (Option α)}, none ∈ xs → allSome xs = none := by
  intro xs
  induction xs with
  | nil => intro h; cases h
  | cons x xs ih =>
    intro h
    cases x with
    | none => rfl
    | some a =>
      rcases List.mem_cons.mp h with h1 | h1
      · exact absurd h1 (by simp)
      · simp [allSome, ih h1]

theorem volatilityCol_length (sqrtFn : α → α) (closes : List (Option α)) :
    (volatilityCol sqrtFn closes).length = closes.length := by
  unfold volatilityCol rollingStdCol
  rw [List.length_map, List.length_range, returnsCol, pctChange_length]

/-- The volatility column of the concrete real-valued 21-close series at the
first complete bar: the square root of the window's sample variance. -/
theorem volR_at_20 :
    (volatilityCol Real.sqrt closesR).getD 20 none =
      some (Real.sqrt ((sampleVar ((windowAt 20 (returnsCol closesQ) 20).filterMap id) : ℚ) : ℝ)) := by
  show (volatilityCol Real.sqrt (castCol closesQ)).getD 20 none = _
  rw [volatilityColR_getD closesQ 20 (by decide)]
  rw [rollingSampleVar_eval 20 (returnsCol closesQ) 20
    (by rw [show returnsCol closesQ = pctChange closesQ from rfl, pctChange_length]; decide)
    (by decide)]
  rfl

theorem returnsQ_at_1 : (returnsCol closesQ).getD 1 none = some 1 := by
  have h : (returnsCol closesQ).getD 1 none = some (((2 : ℚ) - 1) / 1) := by
    show (pctChange closesQ).getD 1 none = _
    unfold pctChange
    rw [ffill_of_all_isSome (by decide)]
    rw [getD_range_map _ _ 1 none (by decide)]
    rfl
  rw [h]
  norm_num

theorem returnsQ_at_2 : (returnsCol closesQ).getD 2 none = some 0 := by
  have h : (returnsCol closesQ).getD 2 none = some (((2 : ℚ) - 2) / 2) := by
    show (pctChange closesQ).getD 2 none = _
    unfold pctChange
    rw [ffill_of_all_isSome (by decide)]
    rw [getD_range_map _ _ 2 none (by decide)]
    rfl
  rw [h]
  norm_num

/-- The sample variance of the concrete first window is positive: the window
contains both the return `1` (bar 1) and the return `0` (bar 2). -/
theorem windowQ_var_pos : 0 < sampleVar ((windowAt 20 (returnsCol closesQ) 20).filterMap id) := by
  have hlen : (returnsCol closesQ).length = 21 := by
    rw [show returnsCol closesQ = pctChange closesQ from rfl, pctChange_length]
    decide
  have hm1 : (1 : ℚ) ∈ (windowAt 20 (returnsCol closesQ) 20).filterMap id := by
    have h := getD_mem_windowAt 20 (returnsCol closesQ) 20 1 (by omega) (by omega)
      (by rw [hlen]; omega)
    rw [returnsQ_at_1] at h
    exact List.mem_filterMap.mpr ⟨some 1, h, rfl⟩
  have hm0 : (0 : ℚ) ∈ (windowAt 20 (returnsCol closesQ) 20).filterMap id := by
    have h := getD_mem_windowAt 20 (returnsCol closesQ) 20 2 (by omega) (by omega)
      (by rw [hlen]; omega)
    rw [returnsQ_at_2] at h
    exact List.mem_filterMap.mpr ⟨some 0, h, rfl⟩
  have hwl : ((windowAt 20 (returnsCol closesQ) 20).filterMap id).length = 20 := by
    have := allSome_length (allSome_of_all_isSome
      (show (windowAt 20 (returnsCol closesQ) 20).all Option.isSome = true by decide))
    rw [this]
    decide
  exact sampleVar_pos _ 1 0 hm1 hm0 (by norm_num) (by omega)

/-- C4 counterexample: at bar 20 of the concrete 21-close series the
volatility produced by the code is the bare window standard deviation, which
differs from the `√252`-annualized value the claim asserts, since the window
standard deviation is positive and `√252 ≠ 1`. -/
theorem c4_counterexample :
    (volatilityCol Real.sqrt closesR).getD 20 none ≠
      (volatilityColSpec Real.sqrt closesR).getD 20 none := by
  have hspec : (volatilityColSpec Real.sqrt closesR).getD 20 none =
      Option.map (fun s => s * Real.sqrt 252) ((volatilityCol Real.sqrt closesR).getD 20 none) := by
    unfold volatilityColSpec
    exact getD_map_none _ rfl _ _
  rw [hspec, volR_at_20]
  set s : ℝ := Real.sqrt ((sampleVar ((windowAt 20 (returnsCol closesQ) 20).filterMap id) : ℚ) : ℝ)
    with hs
  intro h
  have heq : s = s * Real.sqrt 252 := Option.some.inj h
  have hpos : 0 < s := by
    rw [hs]
    apply Real.sqrt_pos.mpr
    exact_mod_cast windowQ_var_pos
  have h252 : Real.sqrt 252 = 1 := by
    have h1 : s * 1 = s * Real.sqrt 252 := by rw [mul_one]; exact heq
    exact (mul_left_cancel₀ (ne_of_gt hpos) h1).symm
  have hsq := Real.sq_sqrt (by norm_num : (0 : ℝ) ≤ 252)
  rw [h252] at hsq
  norm_num at hsq

/-! ### C5: the percentile window is rolling, not expanding -/

/-- C5 counterexample: at bar 20 of the concrete 21-close series the first
volatility value exists, so the expanding-window percentile the claim
describes is defined there, but the code's `rolling(window=252)` rank is
undefined (fewer than 252 observations). -/
theorem c5_counterexample :
    (volPercentileCol Real.sqrt closesR).getD 20 none = none ∧
    (volPercentileColSpec Real.sqrt closesR).getD 20 none ≠ none := by
  have hcrl : closesR.length = 21 := by decide
  have hvl : (volatilityCol Real.sqrt closesR).length = 21 := by
    rw [volatilityCol_length, hcrl]
  have h0 : (volatilityCol Real.sqrt closesR).getD 0 none = none := by
    rw [volatilityCol_getD Real.sqrt closesR 0 (by rw [hcrl]; omega)]
    rw [show rollingSampleVar 20 (returnsCol closesR) 0 = none from by
      unfold rollingSampleVar
      rw [if_pos (Or.inl (by omega))]]
    rfl
  have hnone : (none : Option ℝ) ∈ volatilityCol Real.sqrt closesR := by
    rw [← h0]
    exact getD_mem_of_lt _ 0 none (by rw [hvl]; omega)
  constructor
  · unfold volPercentileCol
    rw [getD_range_map _ _ 20 none (by rw [hcrl]; omega)]
    unfold rollingRankPct
    rw [if_neg (by rw [hvl]; omega)]
    have hwin : windowAt 252 (volatilityCol Real.sqrt closesR) 20 =
        volatilityCol Real.sqrt closesR := by
      unfold windowAt
      rw [show 20 + 1 - 252 = 0 from rfl, List.drop_zero,
        List.take_of_length_le (le_of_eq (by rw [hvl]))]
    rw [hwin, allSome_eq_none_of_mem hnone]
  · unfold volPercentileColSpec
    rw [getD_range_map _ _ 20 none (by rw [hcrl]; omega)]
    unfold expandingRankPct
    rw [if_neg (by rw [hvl]; omega), volR_at_20]
    simp

theorem countP_lt_add_countP_eq_le_length (obs : List α) (x : α) :
    obs.countP (fun y => decide (y < x)) + obs.countP (fun y => decide (y = x)) ≤
      obs.length := by
  induction obs with
  | nil => simp
  | cons a obs ih =>
    simp only [List.countP_cons, List.length_cons]
    by_cases h1 : a < x
    · have h2 : ¬ (a = x) := fun h => absurd (h ▸ h1) (lt_irrefl x)
      simp [h1, h2]
      omega
    · by_cases h2 : a = x
      · simp [h1, h2]
        omega
      · simp [h1, h2]
        omega

theorem avgRank_pos (obs : List α) (x : α) : 0 < avgRank obs x := by
  unfold avgRank
  have h1 : (0 : α) ≤ (obs.countP (fun y => decide (y < x)) : α) := Nat.cast_nonneg _
  have h2 : (0 : α) ≤ (obs.countP (fun y => decide (y = x)) : α) := Nat.cast_nonneg _
  have h3 : (0 : α) < ((obs.countP (fun y => decide (y = x)) : α) + 1) / 2 :=
    div_pos (by linarith) (by norm_num)
  linarith

theorem avgRank_le (obs : List α) (x : α) (hx : x ∈ obs) :
    avgRank obs x ≤ (obs.length : α) := by
  unfold avgRank
  have hcnt := countP_lt_add_countP_eq_le_length obs x
  have h1 : 1 ≤ obs.countP (fun y => decide (y = x)) :=
    List.countP_pos_iff.mpr ⟨x, hx, by simp⟩
  have h1a : (1 : α) ≤ (obs.countP (fun y => decide (y = x)) : α) := by exact_mod_cast h1
  have hhalf : ((obs.countP (fun y => decide (y = x)) : α) + 1) / 2 ≤
      (obs.countP (fun y => decide (y = x)) : α) := by
    rw [div_le_iff₀ (by norm_num : (0 : α) < 2)]
    linarith
  have hcnta : (obs.countP (fun y => decide (y < x)) : α) +
      (obs.countP (fun y => decide (y = x)) : α) ≤ (obs.length : α) := by
    exact_mod_cast hcnt
  linarith

/-- C5 (amended): `vol_percentile` is the average fractional rank of the
current volatility within its trailing 252-bar rolling window — not an
expanding window — defined only when that window holds 252 non-missing
observations; when defined the value lies in `(0, 1]` and ties resolve to
the average fractional rank without error. -/
theorem c5_rolling_rank (sqrtFn : α → α) (closes vols : List (Option α)) (i : ℕ) (x : α)
    (hi : i < vols.length)
    (hall : (windowAt 252 vols i).all Option.isSome = true)
    (hlen : (windowAt 252 vols i).length = 252)
    (hx : vols.getD i none = some x) :
    volPercentileCol sqrtFn closes =
      (List.range closes.length).map (rollingRankPct 252 (volatilityCol sqrtFn closes)) ∧
    ∃ r, rollingRankPct 252 vols i = some r ∧
      r = avgRank ((windowAt 252 vols i).filterMap id) x / 252 ∧ 0 < r ∧ r ≤ 1 := by
  refine ⟨rfl, ?_⟩
  have hobs := allSome_of_all_isSome hall
  have holen : ((windowAt 252 vols i).filterMap id).length = 252 := by
    rw [allSome_length hobs, hlen]
  have hxmem : x ∈ (windowAt 252 vols i).filterMap id := by
    have hmem := getD_mem_windowAt 252 vols i i (by omega) (le_refl i) hi
    rw [hx] at hmem
    exact List.mem_filterMap.mpr ⟨some x, hmem, rfl⟩
  have hcast : ((((windowAt 252 vols i).filterMap id)).length : α) = 252 := by
    rw [holen]
    norm_num
  refine ⟨avgRank ((windowAt 252 vols i).filterMap id) x / 252, ?_,
    rfl, div_pos (avgRank_pos _ _) (by norm_num), ?_⟩
  · unfold rollingRankPct
    rw [if_neg (show ¬ vols.length ≤ i by omega), hobs]
    simp only [hx]
    rw [if_neg (show ¬ (List.filterMap id (windowAt 252 vols i)).length < 252 by
      rw [holen]; omega)]
    rw [hcast]
  · rw [div_le_one (by norm_num : (0 : α) < 252)]
    calc avgRank ((windowAt 252 vols i).filterMap id) x
        ≤ ((((windowAt 252 vols i).filterMap id)).length : α) := avgRank_le _ _ hxmem
      _ = 252 := hcast

set_option maxRecDepth 4000 in
/-- C5 witness: the amended statement applied to a constant volatility
column of 252 zero values — the all-ties case — at its last index. -/
theorem c5_witness :
    (251 < vols252.length ∧ (windowAt 252 vols252 251).all Option.isSome = true ∧
      (windowAt 252 vols252 251).length = 252 ∧ vols252.getD 251 none = some 0) ∧
    (volPercentileCol (fun q : ℚ => q) ([] : List (Option ℚ)) =
        (List.range ([] : List (Option ℚ)).length).map
          (rollingRankPct 252 (volatilityCol (fun q : ℚ => q) [])) ∧
      ∃ r, rollingRankPct 252 vols252 251 = some r ∧
        r = avgRank ((windowAt 252 vols252 251).filterMap id) 0 / 252 ∧ 0 < r ∧ r ≤ 1) :=
  ⟨⟨by decide, by decide, by decide, by decide⟩,
    c5_rolling_rank (fun q : ℚ => q) [] vols252 251 0 (by decide) (by decide) (by decide)
      (by decide)⟩

end QuantVol
